import Mathlib

/-!
Verification development for the distributed log-tag counting engine
(`Task 1/t1.py`).

The program counts occurrences of log-severity tags across a collection of
text files: a coordinator resolves a file list, partitions it into
contiguous chunks (`chunk_list`), each participant counts tags in its chunk
(`analyse_files`), and the partial tag-count mappings are merged additively
(`dict_add`).

Shallow embedding conventions:
- The filesystem is an explicit parameter `FS : String → Option (List String)`
  mapping a file name to its list of lines (without terminators); `none`
  models a file that cannot be opened (the `except` branch of the source).
- A Python `dict`/`Counter` with string keys and non-negative integer values
  is an insertion-ordered association list with unique keys (`Counter`);
  `Counter.get` is `d.get(k, 0)`, `Counter.set` is `d[k] = v` (update in
  place if present, else append), matching CPython dict semantics.
- Machine integers are `Nat`/`Int`; counts only grow so `Nat` suffices.
- The MPI world size is a `Nat`; the source guard `n_parts <= 0` becomes
  `n_parts = 0` (MPI guarantees `size >= 1`).
-/

/-- A Python dict/Counter with string keys and natural-number counts,
modelled as an insertion-ordered association list with unique keys. -/
abbrev Counter := List (String × Nat)

/-- The filesystem: a file name maps to its list of lines, or `none` when
opening the file raises (the `except Exception` branch in the source). -/
abbrev FS := String → Option (List String)

/-- Python `d.get(k, 0)`: value stored under key `k`, defaulting to 0. -/
def Counter.get : Counter → String → Nat
  | [], _ => 0
  | p :: rest, k => if p.1 = k then p.2 else Counter.get rest k

/-- Python `d[k] = v`: replace the entry for `k` in place if the key is
present, otherwise append the new entry at the end (dict insertion order). -/
def Counter.set : Counter → String → Nat → Counter
  | [], k, v => [(k, v)]
  | p :: rest, k, v => if p.1 = k then (k, v) :: rest else p :: Counter.set rest k v

/-- The keys of a mapping, in insertion order (Python `d.keys()`). -/
def Counter.keys (c : Counter) : List String := c.map Prod.fst

/-- `LOG_LEVELS = ['DEBUG', 'ERROR', 'INFO', 'WARN']` (t1.py line 9). -/
def LOG_LEVELS : List String := ["DEBUG", "ERROR", "INFO", "WARN"]

/-- Does `p` occur at the head of `s`? (helper for substring tests). -/
def startsWithL : List Char → List Char → Bool
  | _, [] => true
  | [], _ :: _ => false
  | a :: s, b :: p => a == b && startsWithL s p

/-- Does `p` occur as a contiguous substring of the second list?
Models the Python `in` operator on strings. -/
def hasSubL (p : List Char) : List Char → Bool
  | [] => startsWithL [] p
  | c :: t => startsWithL (c :: t) p || hasSubL p t

/-- Python `pat in s` (contiguous substring test). -/
def hasSub (s pat : String) : Bool := hasSubL pat.toList s.toList

/-- Python `input_arg.endswith('.txt')` (t1.py line 84). -/
def endsWithTxt (s : String) : Bool :=
  startsWithL s.toList.reverse (String.toList ".txt").reverse

/-- Python `str.strip()`: remove whitespace from both ends. -/
def strip (s : String) : String :=
  String.mk (((s.toList.dropWhile Char.isWhitespace).reverse.dropWhile
    Char.isWhitespace).reverse)

/-- Backtracking continuation of `LOG_REGEX` after the bracket closing
group 1: matches `\s*\[(.*?)\]` and returns group 2.  The greedy `\s*` must
reach a literal `[` (a shorter whitespace run stops at a whitespace
character, so backtracking it never helps), and the non-greedy group 2 ends
at the first following `]`. -/
def scan_g2 (s : List Char) : Option (List Char) :=
  match s.dropWhile Char.isWhitespace with
  | '[' :: rest =>
    if rest.any (fun c => c == ']') then some (rest.takeWhile (fun c => c != ']'))
    else none
  | _ => none

/-- Backtracking search for the bracket closing the non-greedy group 1 of
`LOG_REGEX = \[(.*?)\]\s*\[(.*?)\]\s*(.*)`: candidates are successive `]`
occurrences, shortest group 1 first; the regex tail `\s*(.*)` always
matches, so a match is complete once group 2 closes. -/
def scan_g1 : List Char → Option (List Char)
  | [] => none
  | c :: rest =>
    if c == ']' then
      match scan_g2 rest with
      | some g2 => some g2
      | none => scan_g1 rest
    else scan_g1 rest

/-- `LOG_REGEX.match(line)` followed by `m.group(2).strip()` (t1.py lines
44-47): `re.match` anchors at the start of the line, so the line must begin
with `[`; returns the stripped second bracketed group on a match. -/
def match_level (line : String) : Option String :=
  match line.toList with
  | '[' :: rest =>
    match scan_g1 rest with
    | some g2 => some (strip (String.mk g2))
    | none => none
  | _ => none

/-- One iteration of the inner loop of `analyse_files` (t1.py lines 43-49):
if the line matches and its level is recognized, increment that level. -/
def classify_line (counts : Counter) (line : String) : Counter :=
  match match_level line with
  | some level =>
    if level ∈ LOG_LEVELS then
      Counter.set counts level (Counter.get counts level + 1)
    else counts
  | none => counts

/-- The per-file line loop of `analyse_files`. -/
def analyse_file_lines (counts : Counter) (lines : List String) : Counter :=
  lines.foldl classify_line counts

/-- One iteration of the outer loop of `analyse_files` (t1.py lines 40-51):
count levels in one file, or increment `__errors__` if it cannot be opened. -/
def analyse_one (fs : FS) (counts : Counter) (fname : String) : Counter :=
  match fs fname with
  | some lines => analyse_file_lines counts lines
  | none => Counter.set counts "__errors__" (Counter.get counts "__errors__" + 1)

/-- `analyse_files(file_list)` (t1.py lines 37-52): count log levels in the
given filenames, starting from an empty Counter; an unopenable file
increments `__errors__` instead of raising. -/
def analyse_files (fs : FS) (file_list : List String) : Counter :=
  file_list.foldl (analyse_one fs) []

/-- The body of the loop in `chunk_list` (t1.py lines 62-65): the state is
(chunks built so far, start index); `lst[start:end]` is
`(lst.drop start).take (end - start)`. -/
def chunk_step (lst : List String) (q r : Nat) (st : List (List String) × Nat)
    (i : Nat) : List (List String) × Nat :=
  let e := st.2 + q + (if i < r then 1 else 0)
  (st.1 ++ [(lst.drop st.2).take (e - st.2)], e)

/-- `chunk_list(lst, n_parts)` (t1.py lines 54-66): split `lst` into
`n_parts` nearly-equal contiguous chunks; `q, r = divmod(len(lst), n_parts)`
and chunk `i` gets `q + (1 if i < r else 0)` elements. -/
def chunk_list (lst : List String) (n_parts : Nat) : List (List String) :=
  if n_parts = 0 then []
  else
    ((List.range n_parts).foldl
      (chunk_step lst (lst.length / n_parts) (lst.length % n_parts))
      ([], 0)).1

/-- `dict_add(a, b)` (t1.py lines 68-70): for each item of `b` in insertion
order, `a[k] = a.get(k, 0) + v`; returns the updated `a` (the source
mutates `a` in place). -/
def dict_add (a b : Counter) : Counter :=
  b.foldl (fun acc kv => Counter.set acc kv.1 (Counter.get acc kv.1 + kv.2)) a

/-- `read_manifest(path)` (t1.py lines 20-28): read the manifest from the
filesystem, strip each line, keep the non-empty ones; `none` when the file
cannot be opened. -/
def read_manifest (fs : FS) (path : String) : Option (List String) :=
  match fs path with
  | some ls => some ((ls.map strip).filter (fun s => s != ""))
  | none => none

/-- `build_from_pattern(pattern, count)` (t1.py lines 30-35): substitute
`{n}` by 1..count; empty for non-positive count (Python `range(1, count+1)`). -/
def build_from_pattern (pattern : String) (count : Int) : List String :=
  (List.range count.toNat).map (fun i => String.replace pattern "{n}" (toString (i + 1)))

/-- File-list resolution on rank 0 (t1.py lines 80-101).  Returns the
resolved file list together with the error messages printed to stderr; in
both configuration-error branches the source continues with an empty list.
The manifest error message in the source also interpolates the exception
text, which has no counterpart in the pure model. -/
def resolve_file_list (fs : FS) (input_arg : String) (count : Int) :
    List String × List String :=
  if endsWithTxt input_arg = true then
    match read_manifest fs input_arg with
    | some fl => (fl, [])
    | none => ([], ["Failed to read manifest " ++ input_arg])
  else if hasSub input_arg "{n}" = true then
    if count ≤ 0 then ([], ["Pattern mode requires --count N (N>0)."])
    else (build_from_pattern input_arg count, [])
  else ([input_arg], [])

/-- The ANALYSIS RESULTS block (t1.py lines 137-140) as a list of
(label, value) entries: one entry per recognized level, always, and the
`FILES_OPEN_ERRORS` entry only when the error count is positive. -/
def report_entries (master_counts : Counter) : List (String × Nat) :=
  LOG_LEVELS.map (fun lvl => (lvl, Counter.get master_counts lvl)) ++
  (if 0 < Counter.get master_counts "__errors__" then
    [("FILES_OPEN_ERRORS", Counter.get master_counts "__errors__")]
   else [])

/-- The data flow of rank 0 in `main` (t1.py lines 106-131): chunk the file
list, keep chunk 0, let each worker `r` analyse chunk `r`, optionally run
the sequential baseline (whose result the source discards into `_`), and
fold the worker results into the master counts in rank order.  Returns the
final merged mapping together with the baseline result (present unless
`--no-seq`). -/
def run_master (fs : FS) (file_list : List String) (size : Nat)
    (no_seq : Bool) : Counter × Option Counter :=
  let assignments := chunk_list file_list size
  let seq_result := if no_seq then none else some (analyse_files fs file_list)
  let my_files := assignments.headD []
  let master_counts := analyse_files fs my_files
  let final := (assignments.drop 1).foldl
    (fun acc a => dict_add acc (analyse_files fs a)) master_counts
  (final, seq_result)

/-- Keys are unique, as in a real Python dict. -/
def WfKeys (c : Counter) : Prop := (Counter.keys c).Nodup

/-- Every stored value is positive (a dict produced by pure increments
never stores an explicit zero). -/
def PosVals (c : Counter) : Prop := ∀ p ∈ c, 0 < p.2

/-- Every key is a recognized log level or the reserved error tag. -/
def KeysOk (c : Counter) : Prop :=
  ∀ p ∈ c, p.1 ∈ LOG_LEVELS ∨ p.1 = "__errors__"

/-- Start index of chunk `i`: the loop in `chunk_list` advances `start` by
`q + 1` for the first `r` iterations and by `q` afterwards. -/
def chunk_start (q r i : Nat) : Nat := i * q + min i r

/-- Length of chunk `i`: `q + (1 if i < r else 0)` (t1.py line 63). -/
def chunk_len (q r i : Nat) : Nat := q + if i < r then 1 else 0

/-- A small concrete filesystem for evaluating the development on concrete
inputs: readable log files, one unreadable file, and a manifest. -/
def sampleFS : FS := fun f =>
  if f = "bad.log" then none
  else if f = "a.log" then some ["[1] [ERROR] boom", "[2] [INFO] ok", "noise"]
  else if f = "list.txt" then some ["a.log", "", "  c.log  "]
  else some ["[3] [WARN] hm"]

/-- A concrete partial mapping, as a worker would produce. -/
def sampleA : Counter := [("ERROR", 2)]

/-- Another concrete partial mapping. -/
def sampleB : Counter := [("INFO", 1), ("ERROR", 1)]

/-- A concrete seven-identifier file list (the spec example for chunking). -/
def sampleSeven : List String :=
  ["f1", "f2", "f3", "f4", "f5", "f6", "f7"]

/-- A concrete file list containing one unreadable identifier. -/
def sampleFiles : List String := ["a.log", "bad.log", "d.log"]

/-! ### Basic dictionary lemmas -/

theorem get_nil (k : String) : Counter.get [] k = 0 := rfl

theorem get_cons (p : String × Nat) (rest : Counter) (k : String) :
    Counter.get (p :: rest) k = if p.1 = k then p.2 else Counter.get rest k := rfl

theorem get_set (c : Counter) (k k' : String) (v : Nat) :
    Counter.get (Counter.set c k v) k' = if k = k' then v else Counter.get c k' := by
  induction c with
  | nil => simp [Counter.set, Counter.get]
  | cons p rest ih =>
    simp only [Counter.set]
    by_cases hp : p.1 = k
    · rw [if_pos hp]
      by_cases hk : k = k'
      · simp [Counter.get, hk]
      · have hpk' : ¬ p.1 = k' := fun h => hk (hp ▸ h)
        simp [Counter.get, hk, hpk']
    · rw [if_neg hp]
      by_cases hq : p.1 = k'
      · have hnk : ¬ k = k' := fun h => hp (by rw [h]; exact hq)
        simp [Counter.get, hq, hnk]
      · simp [Counter.get, hq, ih]

theorem mem_keys_set (c : Counter) (k : String) (v : Nat) (a : String) :
    a ∈ Counter.keys (Counter.set c k v) ↔ a ∈ Counter.keys c ∨ a = k := by
  induction c with
  | nil => simp [Counter.set, Counter.keys]
  | cons p rest ih =>
    simp only [Counter.set]
    by_cases hp : p.1 = k
    · rw [if_pos hp]
      simp [Counter.keys, hp]
      tauto
    · rw [if_neg hp]
      simp [Counter.keys] at ih
      simp [Counter.keys, ih]
      tauto

theorem nodup_keys_set (c : Counter) (k : String) (v : Nat)
    (h : (Counter.keys c).Nodup) : (Counter.keys (Counter.set c k v)).Nodup := by
  induction c with
  | nil => simp [Counter.set, Counter.keys]
  | cons p rest ih =>
    simp only [Counter.keys, List.map_cons, List.nodup_cons] at h
    simp only [Counter.set]
    by_cases hp : p.1 = k
    · rw [if_pos hp]
      simp only [Counter.keys, List.map_cons, List.nodup_cons]
      exact ⟨hp ▸ h.1, h.2⟩
    · rw [if_neg hp]
      simp only [Counter.keys, List.map_cons, List.nodup_cons]
      refine ⟨?_, ih h.2⟩
      intro hmem
      rcases (mem_keys_set rest k v p.1).mp hmem with h1 | h1
      · exact h.1 h1
      · exact hp h1

theorem mem_set (c : Counter) (k : String) (v : Nat) (p : String × Nat)
    (h : p ∈ Counter.set c k v) : p ∈ c ∨ p = (k, v) := by
  induction c with
  | nil => simp [Counter.set] at h; simp [h]
  | cons q rest ih =>
    simp only [Counter.set] at h
    by_cases hq : q.1 = k
    · rw [if_pos hq] at h
      rcases List.mem_cons.mp h with h1 | h1
      · exact Or.inr h1
      · exact Or.inl (List.mem_cons_of_mem q h1)
    · rw [if_neg hq] at h
      rcases List.mem_cons.mp h with h1 | h1
      · exact Or.inl (h1 ▸ List.mem_cons_self q rest)
      · rcases ih h1 with h2 | h2
        · exact Or.inl (List.mem_cons_of_mem q h2)
        · exact Or.inr h2

theorem get_eq_zero_of_not_mem_keys (c : Counter) (k : String)
    (h : k ∉ Counter.keys c) : Counter.get c k = 0 := by
  induction c with
  | nil => rfl
  | cons p rest ih =>
    simp only [Counter.keys, List.map_cons, List.mem_cons] at h
    push_neg at h
    simp only [Counter.get]
    rw [if_neg (fun he => h.1 (Eq.symm he)), ih]
    intro hm
    exact h.2 hm

theorem get_of_mem (c : Counter) (hw : (Counter.keys c).Nodup)
    (k : String) (v : Nat) (h : (k, v) ∈ c) : Counter.get c k = v := by
  induction c with
  | nil => cases h
  | cons p rest ih =>
    simp only [Counter.keys, List.map_cons, List.nodup_cons] at hw
    rcases List.mem_cons.mp h with h1 | h1
    · rw [← h1]
      simp [Counter.get]
    · have hk : p.1 ≠ k := by
        intro he
        exact hw.1 (he ▸ (by simpa using List.mem_map_of_mem Prod.fst h1))
      simp only [Counter.get]
      rw [if_neg hk]
      exact ih hw.2 h1

theorem mem_of_get_pos (c : Counter) (k : String) (v : Nat)
    (h : Counter.get c k = v) (hv : 0 < v) : (k, v) ∈ c := by
  induction c with
  | nil => simp [Counter.get] at h; omega
  | cons p rest ih =>
    simp only [Counter.get] at h
    by_cases hp : p.1 = k
    · rw [if_pos hp] at h
      have hpv : p = (k, v) := by
        cases p
        simp_all
      rw [← hpv]
      exact List.mem_cons_self _ _
    · rw [if_neg hp] at h
      exact List.mem_cons_of_mem p (ih h)

theorem perm_of_get_eq (a b : Counter) (ha : WfKeys a) (hb : WfKeys b)
    (hpa : PosVals a) (hpb : PosVals b)
    (h : ∀ k, Counter.get a k = Counter.get b k) : List.Perm a b := by
  have hna : a.Nodup := List.Nodup.of_map Prod.fst ha
  have hnb : b.Nodup := List.Nodup.of_map Prod.fst hb
  rw [List.perm_ext_iff_of_nodup hna hnb]
  rintro ⟨k, v⟩
  constructor
  · intro hx
    have hv : 0 < v := hpa _ hx
    exact mem_of_get_pos b k v ((h k).symm.trans (get_of_mem a ha k v hx)) hv
  · intro hx
    have hv : 0 < v := hpb _ hx
    exact mem_of_get_pos a k v ((h k).trans (get_of_mem b hb k v hx)) hv

/-! ### Additivity of the counting passes -/

theorem foldl_get_additive {β : Type} (step : Counter → β → Counter)
    (hstep : ∀ c x k, Counter.get (step c x) k
      = Counter.get c k + Counter.get (step [] x) k)
    (xs : List β) (c : Counter) (k : String) :
    Counter.get (xs.foldl step c) k
      = Counter.get c k + Counter.get (xs.foldl step []) k := by
  induction xs generalizing c with
  | nil => simp [Counter.get]
  | cons x xs ih =>
    simp only [List.foldl_cons]
    rw [ih (step c x), ih (step [] x), hstep c x k]
    omega

theorem classify_line_additive (c : Counter) (line : String) (k : String) :
    Counter.get (classify_line c line) k
      = Counter.get c k + Counter.get (classify_line [] line) k := by
  unfold classify_line
  cases match_level line with
  | none => simp [Counter.get]
  | some level =>
    by_cases hl : level ∈ LOG_LEVELS
    · simp only [hl, if_true]
      rw [get_set, get_set]
      by_cases hk : level = k
      · subst hk
        simp [Counter.get]
      · simp [hk, Counter.get]
    · simp [hl, Counter.get]

theorem analyse_one_additive (fs : FS) (c : Counter) (fname : String) (k : String) :
    Counter.get (analyse_one fs c fname) k
      = Counter.get c k + Counter.get (analyse_one fs [] fname) k := by
  unfold analyse_one
  cases fs fname with
  | some lines =>
    exact foldl_get_additive classify_line classify_line_additive lines c k
  | none =>
    rw [get_set, get_set]
    by_cases hk : "__errors__" = k
    · subst hk
      simp [Counter.get]
    · simp [hk, Counter.get]

theorem analyse_files_append (fs : FS) (A B : List String) (k : String) :
    Counter.get (analyse_files fs (A ++ B)) k
      = Counter.get (analyse_files fs A) k + Counter.get (analyse_files fs B) k := by
  unfold analyse_files
  rw [List.foldl_append]
  exact foldl_get_additive (analyse_one fs) (analyse_one_additive fs) B
    (A.foldl (analyse_one fs) []) k

theorem analyse_files_join (fs : FS) (cs : List (List String)) (k : String) :
    Counter.get (analyse_files fs cs.flatten) k
      = (cs.map (fun c => Counter.get (analyse_files fs c) k)).sum := by
  induction cs with
  | nil => simp [analyse_files, Counter.get]
  | cons c cs ih =>
    rw [List.flatten_cons, analyse_files_append, ih, List.map_cons, List.sum_cons]

/-! ### Additivity of the merge -/

theorem get_dict_add (a b : Counter) (hb : WfKeys b) (k : String) :
    Counter.get (dict_add a b) k = Counter.get a k + Counter.get b k := by
  induction b generalizing a with
  | nil => simp [dict_add, Counter.get]
  | cons p rest ih =>
    have hb' : (Counter.keys rest).Nodup ∧ p.1 ∉ Counter.keys rest := by
      simpa [WfKeys, Counter.keys, and_comm] using hb
    have hstep : dict_add a (p :: rest)
        = dict_add (Counter.set a p.1 (Counter.get a p.1 + p.2)) rest := rfl
    rw [hstep, ih _ hb'.1, get_set, get_cons]
    by_cases hp : p.1 = k
    · subst hp
      rw [if_pos rfl, if_pos rfl, get_eq_zero_of_not_mem_keys rest p.1 hb'.2]
      omega
    · rw [if_neg hp, if_neg hp]

theorem get_foldl_dict_add (ps : List Counter) (a : Counter)
    (h : ∀ p ∈ ps, WfKeys p) (k : String) :
    Counter.get (ps.foldl dict_add a) k
      = Counter.get a k + (ps.map (fun p => Counter.get p k)).sum := by
  induction ps generalizing a with
  | nil => simp
  | cons p ps ih =>
    simp only [List.foldl_cons, List.map_cons, List.sum_cons]
    rw [ih (dict_add a p) (fun q hq => h q (List.mem_cons_of_mem p hq)),
      get_dict_add a p (h p (List.mem_cons_self p ps))]
    omega

/-! ### Preservation of the dictionary invariants -/

theorem foldl_preserves {β : Type} (P : Counter → Prop)
    (step : Counter → β → Counter) (hstep : ∀ c x, P c → P (step c x))
    (xs : List β) (c : Counter) (h : P c) : P (xs.foldl step c) := by
  induction xs generalizing c with
  | nil => exact h
  | cons x xs ih => exact ih (step c x) (hstep c x h)

theorem wfKeys_set (c : Counter) (k : String) (v : Nat) (h : WfKeys c) :
    WfKeys (Counter.set c k v) := nodup_keys_set c k v h

theorem wfKeys_classify_line (c : Counter) (line : String) (h : WfKeys c) :
    WfKeys (classify_line c line) := by
  unfold classify_line
  cases match_level line with
  | none => exact h
  | some level =>
    by_cases hl : level ∈ LOG_LEVELS
    · simp only [hl, if_true]
      exact wfKeys_set _ _ _ h
    · simpa [hl] using h

theorem wfKeys_analyse_one (fs : FS) (c : Counter) (fname : String)
    (h : WfKeys c) : WfKeys (analyse_one fs c fname) := by
  unfold analyse_one
  cases fs fname with
  | some lines =>
    exact foldl_preserves WfKeys classify_line wfKeys_classify_line lines c h
  | none => exact wfKeys_set _ _ _ h

theorem wfKeys_nil : WfKeys [] := by simp [WfKeys, Counter.keys]

theorem wfKeys_analyse_files (fs : FS) (L : List String) :
    WfKeys (analyse_files fs L) :=
  foldl_preserves WfKeys (analyse_one fs) (wfKeys_analyse_one fs) L [] wfKeys_nil

theorem wfKeys_dict_add (a b : Counter) (h : WfKeys a) : WfKeys (dict_add a b) :=
  foldl_preserves WfKeys _ (fun c kv hc => wfKeys_set c kv.1 _ hc) b a h

theorem posVals_set (c : Counter) (k : String) (v : Nat) (hv : 0 < v)
    (h : PosVals c) : PosVals (Counter.set c k v) := by
  intro p hp
  rcases mem_set c k v p hp with h1 | h1
  · exact h p h1
  · rw [h1]
    exact hv

theorem posVals_classify_line (c : Counter) (line : String) (h : PosVals c) :
    PosVals (classify_line c line) := by
  unfold classify_line
  cases match_level line with
  | none => exact h
  | some level =>
    by_cases hl : level ∈ LOG_LEVELS
    · simp only [hl, if_true]
      exact posVals_set _ _ _ (Nat.succ_pos _) h
    · simpa [hl] using h

theorem posVals_analyse_one (fs : FS) (c : Counter) (fname : String)
    (h : PosVals c) : PosVals (analyse_one fs c fname) := by
  unfold analyse_one
  cases fs fname with
  | some lines =>
    exact foldl_preserves PosVals classify_line posVals_classify_line lines c h
  | none => exact posVals_set _ _ _ (Nat.succ_pos _) h

theorem posVals_nil : PosVals [] := by intro p hp; cases hp

theorem posVals_analyse_files (fs : FS) (L : List String) :
    PosVals (analyse_files fs L) :=
  foldl_preserves PosVals (analyse_one fs) (posVals_analyse_one fs) L [] posVals_nil

theorem posVals_dict_add (a b : Counter) (hpa : PosVals a) (hpb : PosVals b) :
    PosVals (dict_add a b) := by
  induction b generalizing a with
  | nil => exact hpa
  | cons p rest ih =>
    have hstep : dict_add a (p :: rest)
        = dict_add (Counter.set a p.1 (Counter.get a p.1 + p.2)) rest := rfl
    rw [hstep]
    refine ih _ ?_ (fun q hq => hpb q (List.mem_cons_of_mem p hq))
    refine posVals_set a p.1 _ ?_ hpa
    have := hpb p (List.mem_cons_self p rest)
    omega


/-! ### Characterization of the partitioner -/

theorem chunk_start_succ (q r m : Nat) :
    chunk_start q r (m + 1) = chunk_start q r m + chunk_len q r m := by
  unfold chunk_start chunk_len
  rw [Nat.succ_mul]
  split <;> omega

theorem chunk_foldl_eq (lst : List String) (q r m : Nat) :
    (List.range m).foldl (chunk_step lst q r) ([], 0)
      = ((List.range m).map
          (fun i => (lst.drop (chunk_start q r i)).take (chunk_len q r i)),
         chunk_start q r m) := by
  induction m with
  | zero => simp [chunk_start]
  | succ m ih =>
    rw [List.range_succ, List.foldl_append, ih, List.map_append]
    have e1 : chunk_start q r m + q + (if m < r then 1 else 0) - chunk_start q r m
        = chunk_len q r m := by
      unfold chunk_len
      omega
    have e2 : chunk_start q r m + q + (if m < r then 1 else 0)
        = chunk_start q r (m + 1) := by
      rw [chunk_start_succ]
      unfold chunk_len
      omega
    simp only [List.foldl_cons, List.foldl_nil, chunk_step]
    rw [e1, e2]
    simp

theorem chunk_list_eq_map (lst : List String) (n : Nat) (hn : n ≠ 0) :
    chunk_list lst n = (List.range n).map
      (fun i => (lst.drop (chunk_start (lst.length / n) (lst.length % n) i)).take
        (chunk_len (lst.length / n) (lst.length % n) i)) := by
  unfold chunk_list
  rw [if_neg hn, chunk_foldl_eq]

theorem chunk_start_mono (q r i j : Nat) (h : i ≤ j) :
    chunk_start q r i ≤ chunk_start q r j := by
  unfold chunk_start
  have h2 : i * q ≤ j * q := Nat.mul_le_mul_right q h
  omega

theorem chunk_start_total (L n : Nat) (hn : n ≠ 0) :
    chunk_start (L / n) (L % n) n = L := by
  unfold chunk_start
  have h1 : L % n < n := Nat.mod_lt _ (Nat.pos_of_ne_zero hn)
  have h2 : n * (L / n) + L % n = L := Nat.div_add_mod L n
  omega

theorem chunk_flatten_take (lst : List String) (q r m : Nat) :
    ((List.range m).map
      (fun i => (lst.drop (chunk_start q r i)).take (chunk_len q r i))).flatten
      = lst.take (chunk_start q r m) := by
  induction m with
  | zero => simp [chunk_start]
  | succ m ih =>
    rw [List.range_succ, List.map_append, List.flatten_append, ih, chunk_start_succ,
      List.take_add]
    simp

theorem chunk_list_flatten (lst : List String) (n : Nat) (hn : n ≠ 0) :
    (chunk_list lst n).flatten = lst := by
  rw [chunk_list_eq_map lst n hn, chunk_flatten_take,
    chunk_start_total lst.length n hn, List.take_length]

theorem chunk_list_length (lst : List String) (n : Nat) (hn : n ≠ 0) :
    (chunk_list lst n).length = n := by
  rw [chunk_list_eq_map lst n hn]
  simp

theorem chunk_slice_length (lst : List String) (n i : Nat) (hn : n ≠ 0) (hi : i < n) :
    ((lst.drop (chunk_start (lst.length / n) (lst.length % n) i)).take
      (chunk_len (lst.length / n) (lst.length % n) i)).length
      = chunk_len (lst.length / n) (lst.length % n) i := by
  rw [List.length_take, List.length_drop]
  have hb : chunk_start (lst.length / n) (lst.length % n) (i + 1)
      ≤ chunk_start (lst.length / n) (lst.length % n) n :=
    chunk_start_mono _ _ _ _ hi
  rw [chunk_start_total lst.length n hn, chunk_start_succ] at hb
  omega

theorem chunk_list_map_length (lst : List String) (n : Nat) (hn : n ≠ 0) :
    (chunk_list lst n).map List.length
      = (List.range n).map
          (fun i => lst.length / n + if i < lst.length % n then 1 else 0) := by
  rw [chunk_list_eq_map lst n hn, List.map_map]
  refine List.map_congr_left ?_
  intro i hi
  rw [List.mem_range] at hi
  simp only [Function.comp]
  rw [chunk_slice_length lst n i hn hi]
  rfl

theorem chunk_mem_length (lst : List String) (n : Nat) (hn : n ≠ 0)
    (c : List String) (hc : c ∈ chunk_list lst n) :
    lst.length / n ≤ c.length ∧ c.length ≤ lst.length / n + 1 := by
  rw [chunk_list_eq_map lst n hn] at hc
  rcases List.mem_map.mp hc with ⟨i, hi, rfl⟩
  rw [List.mem_range] at hi
  rw [chunk_slice_length lst n i hn hi]
  unfold chunk_len
  split <;> omega


/-! ### The error tag is touched only by unreadable files -/

theorem get_err_classify_line (c : Counter) (line : String) :
    Counter.get (classify_line c line) "__errors__"
      = Counter.get c "__errors__" := by
  unfold classify_line
  cases match_level line with
  | none => rfl
  | some level =>
    by_cases hl : level ∈ LOG_LEVELS
    · simp only [hl, if_true]
      rw [get_set, if_neg]
      intro he
      rw [he] at hl
      exact absurd hl (by decide)
    · simp [hl]

theorem get_err_analyse_file_lines (c : Counter) (lines : List String) :
    Counter.get (analyse_file_lines c lines) "__errors__"
      = Counter.get c "__errors__" := by
  induction lines generalizing c with
  | nil => rfl
  | cons l ls ih =>
    show Counter.get (analyse_file_lines (classify_line c l) ls) "__errors__" = _
    rw [ih, get_err_classify_line]

theorem analyse_single_unreadable (fs : FS) (u : String) (hu : fs u = none) :
    analyse_files fs [u] = [("__errors__", 1)] := by
  simp [analyse_files, analyse_one, hu, Counter.set, Counter.get]

theorem analyse_readable_no_err (fs : FS) (xs : List String)
    (h : ∀ f ∈ xs, (fs f).isSome = true) :
    Counter.get (analyse_files fs xs) "__errors__" = 0 := by
  induction xs with
  | nil => rfl
  | cons x xs ih =>
    have hx : x :: xs = [x] ++ xs := rfl
    rw [hx, analyse_files_append,
      ih (fun f hf => h f (List.mem_cons_of_mem x hf))]
    rcases Option.isSome_iff_exists.mp (h x (List.mem_cons_self x xs)) with ⟨lines, hl⟩
    have hone : analyse_files fs [x] = analyse_file_lines [] lines := by
      simp [analyse_files, analyse_one, hl]
    rw [hone, get_err_analyse_file_lines]
    rfl

/-! ### Further invariant plumbing -/

theorem wfKeys_foldl_dict_add (ps : List Counter) (a : Counter) (h : WfKeys a) :
    WfKeys (ps.foldl dict_add a) :=
  foldl_preserves WfKeys dict_add (fun c b hc => wfKeys_dict_add c b hc) ps a h

theorem posVals_foldl_dict_add (ps : List Counter) (a : Counter)
    (hpa : PosVals a) (h : ∀ p ∈ ps, PosVals p) : PosVals (ps.foldl dict_add a) := by
  induction ps generalizing a with
  | nil => exact hpa
  | cons p ps ih =>
    exact ih (dict_add a p)
      (posVals_dict_add a p hpa (h p (List.mem_cons_self p ps)))
      (fun q hq => h q (List.mem_cons_of_mem p hq))

theorem keysOk_classify_line (c : Counter) (line : String) (h : KeysOk c) :
    KeysOk (classify_line c line) := by
  unfold classify_line
  cases match_level line with
  | none => exact h
  | some level =>
    by_cases hl : level ∈ LOG_LEVELS
    · simp only [hl, if_true]
      intro p hp
      rcases mem_set _ _ _ p hp with h1 | h1
      · exact h p h1
      · rw [h1]
        exact Or.inl hl
    · simpa [hl] using h

theorem keysOk_analyse_one (fs : FS) (c : Counter) (fname : String)
    (h : KeysOk c) : KeysOk (analyse_one fs c fname) := by
  unfold analyse_one
  cases fs fname with
  | some lines =>
    exact foldl_preserves KeysOk classify_line keysOk_classify_line lines c h
  | none =>
    intro p hp
    rcases mem_set _ _ _ p hp with h1 | h1
    · exact h p h1
    · rw [h1]
      exact Or.inr rfl

theorem keysOk_nil : KeysOk [] := fun p hp => absurd hp (List.not_mem_nil p)

theorem keysOk_dict_add (a b : Counter) (ha : KeysOk a) (hb : KeysOk b) :
    KeysOk (dict_add a b) := by
  induction b generalizing a with
  | nil => exact ha
  | cons p rest ih =>
    have hstep : dict_add a (p :: rest)
        = dict_add (Counter.set a p.1 (Counter.get a p.1 + p.2)) rest := rfl
    rw [hstep]
    refine ih _ ?_ (fun q hq => hb q (List.mem_cons_of_mem p hq))
    intro q hq
    rcases mem_set _ _ _ q hq with h1 | h1
    · exact ha q h1
    · rw [h1]
      simpa using hb p (List.mem_cons_self p rest)

theorem chunk_list_nil_all_nil (n : Nat) (c : List String)
    (hc : c ∈ chunk_list [] n) : c = [] := by
  rcases Nat.eq_zero_or_pos n with h | h
  · subst h
    simp [chunk_list] at hc
  · rw [chunk_list_eq_map [] n (by omega)] at hc
    rcases List.mem_map.mp hc with ⟨i, _, rfl⟩
    simp

/-! ### Claim theorems -/

/-- C2: for every list `L` and participant count `N ≥ 1`, `chunk_list L N`
returns exactly `N` contiguous slices whose in-order concatenation equals
`L` (no duplicates, no omissions), slice `i` has length
`L.length / N + 1` when `i < L.length % N` and `L.length / N` otherwise
(so the first `L.length mod N` slices get one extra element), and the
lengths of any two slices differ by at most 1; a list of 7 identifiers
with `N = 3` therefore yields slice sizes `[3, 2, 2]`. -/
theorem c2_chunk_list_partition (L : List String) (N : Nat) (h : 1 ≤ N) :
    (chunk_list L N).length = N ∧
    (chunk_list L N).flatten = L ∧
    (chunk_list L N).map List.length
      = (List.range N).map
          (fun i => L.length / N + if i < L.length % N then 1 else 0) ∧
    ∀ c1 ∈ chunk_list L N, ∀ c2 ∈ chunk_list L N, c1.length ≤ c2.length + 1 := by
  have hn : N ≠ 0 := by omega
  refine ⟨chunk_list_length L N hn, chunk_list_flatten L N hn,
    chunk_list_map_length L N hn, ?_⟩
  intro c1 h1 c2 h2
  have b1 := chunk_mem_length L N hn c1 h1
  have b2 := chunk_mem_length L N hn c2 h2
  omega

/-- Witness for C2 at the spec example: seven identifiers, three chunks. -/
theorem c2_chunk_list_partition_witness :
    1 ≤ 3 ∧
    ((chunk_list sampleSeven 3).length = 3 ∧
     (chunk_list sampleSeven 3).flatten = sampleSeven ∧
     (chunk_list sampleSeven 3).map List.length
       = (List.range 3).map
           (fun i => sampleSeven.length / 3 + if i < sampleSeven.length % 3 then 1 else 0) ∧
     ∀ c1 ∈ chunk_list sampleSeven 3, ∀ c2 ∈ chunk_list sampleSeven 3,
       c1.length ≤ c2.length + 1) :=
  ⟨by decide, c2_chunk_list_partition sampleSeven 3 (by decide)⟩

/-- C9: a participant with an empty workload still produces a well-defined
empty mapping rather than failing: `analyse_files` on the empty file list
is the empty Counter, and every tag count in it is zero. -/
theorem c9_empty_workload_zero_counts (fs : FS) :
    analyse_files fs [] = [] ∧ ∀ k, Counter.get (analyse_files fs []) k = 0 :=
  ⟨rfl, fun _ => rfl⟩

/-- C7: the optional sequential baseline pass (run unless `--no-seq`) has
no effect on the distributed counts: for every filesystem, file list and
world size, the final merged mapping when the baseline is run equals the
final merged mapping when it is skipped. -/
theorem c7_baseline_no_effect (fs : FS) (L : List String) (size : Nat) :
    (run_master fs L size false).1 = (run_master fs L size true).1 := rfl

/-- C4 counterexample: for a counts mapping whose error total is zero, the
ANALYSIS RESULTS block emitted by the coordinator contains no
`FILES_OPEN_ERRORS` entry at all, refuting the claim that the final report
always includes the error-tag total even when it is zero. -/
theorem c4_error_total_omitted_when_zero :
    ((report_entries [("INFO", 5)]).any
      (fun p => p.1 == "FILES_OPEN_ERRORS")) = false := by
  decide

/-- C4 amended: the final report includes the error-tag total exactly when
that total is positive; a zero error total is omitted from the report. -/
theorem c4_error_total_reported_iff_positive (c : Counter) :
    ((report_entries c).any (fun p => p.1 == "FILES_OPEN_ERRORS")) = true
      ↔ 0 < Counter.get c "__errors__" := by
  by_cases h : 0 < Counter.get c "__errors__" <;>
    simp [report_entries, LOG_LEVELS, h]

/-- C6: a configuration error (pattern mode with non-positive `--count`,
or a manifest that cannot be read) is reported to the invoker, the
resolved file list is empty, and hence every assignment that chunking
could dispatch to a worker is empty: no file is dispatched. -/
theorem c6_config_error_no_dispatch (fs : FS) (input_arg : String)
    (count : Int) (size : Nat)
    (herr : (endsWithTxt input_arg = false ∧ hasSub input_arg "{n}" = true ∧
              count ≤ 0)
          ∨ (endsWithTxt input_arg = true ∧ fs input_arg = none)) :
    (resolve_file_list fs input_arg count).2 ≠ [] ∧
    (resolve_file_list fs input_arg count).1 = [] ∧
    ∀ c ∈ chunk_list (resolve_file_list fs input_arg count).1 size, c = [] := by
  have hres : (resolve_file_list fs input_arg count).1 = [] ∧
      (resolve_file_list fs input_arg count).2 ≠ [] := by
    rcases herr with ⟨h1, h2, h3⟩ | ⟨h1, h2⟩
    · simp [resolve_file_list, h1, h2, h3]
    · simp [resolve_file_list, read_manifest, h1, h2]
  refine ⟨hres.2, hres.1, ?_⟩
  intro c hc
  rw [hres.1] at hc
  exact chunk_list_nil_all_nil size c hc

/-- Witness for C6 at a concrete pattern-mode invocation with count 0. -/
theorem c6_config_error_no_dispatch_witness :
    ((endsWithTxt "app_{n}.log" = false ∧ hasSub "app_{n}.log" "{n}" = true ∧
        (0 : Int) ≤ 0)
      ∨ (endsWithTxt "app_{n}.log" = true ∧ sampleFS "app_{n}.log" = none)) ∧
    ((resolve_file_list sampleFS "app_{n}.log" 0).2 ≠ [] ∧
     (resolve_file_list sampleFS "app_{n}.log" 0).1 = [] ∧
     ∀ c ∈ chunk_list (resolve_file_list sampleFS "app_{n}.log" 0).1 2, c = []) :=
  ⟨Or.inl ⟨by decide, by decide, by decide⟩,
   c6_config_error_no_dispatch sampleFS "app_{n}.log" 0 2
     (Or.inl ⟨by decide, by decide, by decide⟩)⟩

/-- C10: resolution precedence — an input ending in `.txt` is always
treated as a manifest (even when it contains the placeholder); pattern
mode applies only to non-`.txt` inputs containing the placeholder; any
other input becomes the single-file list of exactly that identifier. -/
theorem c10_input_resolution_precedence (fs : FS) (input_arg : String)
    (count : Int) :
    (endsWithTxt input_arg = true →
      (resolve_file_list fs input_arg count).1
        = (read_manifest fs input_arg).getD []) ∧
    (endsWithTxt input_arg = false → hasSub input_arg "{n}" = true →
      0 < count →
      (resolve_file_list fs input_arg count).1
        = build_from_pattern input_arg count) ∧
    (endsWithTxt input_arg = false → hasSub input_arg "{n}" = false →
      (resolve_file_list fs input_arg count).1 = [input_arg]) := by
  refine ⟨?_, ?_, ?_⟩
  · intro h1
    unfold resolve_file_list
    rw [if_pos h1]
    cases read_manifest fs input_arg <;> simp
  · intro h1 h2 h3
    have h4 : ¬ count ≤ 0 := by omega
    simp [resolve_file_list, h1, h2, h4]
  · intro h1 h2
    simp [resolve_file_list, h1, h2]

/-- Witness for C10: a `.txt` input containing the placeholder goes to the
manifest branch; a pattern input expands; a plain input is a singleton. -/
theorem c10_input_resolution_precedence_witness :
    (endsWithTxt "x{n}.txt" = true ∧
      (resolve_file_list sampleFS "x{n}.txt" 5).1
        = (read_manifest sampleFS "x{n}.txt").getD []) ∧
    (endsWithTxt "f_{n}.log" = false ∧ hasSub "f_{n}.log" "{n}" = true ∧
      (0 : Int) < 2 ∧
      (resolve_file_list sampleFS "f_{n}.log" 2).1
        = build_from_pattern "f_{n}.log" 2) ∧
    (endsWithTxt "single.log" = false ∧ hasSub "single.log" "{n}" = false ∧
      (resolve_file_list sampleFS "single.log" 7).1 = ["single.log"]) :=
  ⟨⟨by decide,
    (c10_input_resolution_precedence sampleFS "x{n}.txt" 5).1 (by decide)⟩,
   ⟨by decide, by decide, by decide,
    (c10_input_resolution_precedence sampleFS "f_{n}.log" 2).2.1
      (by decide) (by decide) (by decide)⟩,
   ⟨by decide, by decide,
    (c10_input_resolution_precedence sampleFS "single.log" 7).2.2
      (by decide) (by decide)⟩⟩

/-- C1: folding the per-chunk mappings with `dict_add` yields exactly the
mapping of one `analyse_files` pass over the whole list — equal as dicts
(a permutation of the key-value entries) and pointwise under `get` — and
the fold exactly as `main` performs it (`run_master`: keep chunk 0, merge
worker results in rank order) agrees pointwise as well; at `N = 1` this is
the sequential reference pass over the same file list. -/
theorem c1_chunked_fold_eq_sequential (fs : FS) (L : List String) (N : Nat)
    (h : 1 ≤ N) :
    List.Perm (((chunk_list L N).map (analyse_files fs)).foldl dict_add [])
      (analyse_files fs L) ∧
    (∀ k, Counter.get
        (((chunk_list L N).map (analyse_files fs)).foldl dict_add []) k
      = Counter.get (analyse_files fs L) k) ∧
    (∀ k, Counter.get (run_master fs L N true).1 k
      = Counter.get (analyse_files fs L) k) := by
  have hn : N ≠ 0 := by omega
  have hwf : ∀ p ∈ (chunk_list L N).map (analyse_files fs), WfKeys p := by
    intro p hp
    rcases List.mem_map.mp hp with ⟨c, _, rfl⟩
    exact wfKeys_analyse_files fs c
  have hget : ∀ k, Counter.get
      (((chunk_list L N).map (analyse_files fs)).foldl dict_add []) k
      = Counter.get (analyse_files fs L) k := by
    intro k
    rw [get_foldl_dict_add _ [] hwf k, List.map_map]
    have hL : analyse_files fs L
        = analyse_files fs (chunk_list L N).flatten := by
      rw [chunk_list_flatten L N hn]
    rw [hL, analyse_files_join]
    simp [Function.comp_def, Counter.get]
  have hposm : ∀ p ∈ (chunk_list L N).map (analyse_files fs), PosVals p := by
    intro p hp
    rcases List.mem_map.mp hp with ⟨c, _, rfl⟩
    exact posVals_analyse_files fs c
  refine ⟨perm_of_get_eq _ _ (wfKeys_foldl_dict_add _ [] wfKeys_nil)
    (wfKeys_analyse_files fs L)
    (posVals_foldl_dict_add _ [] posVals_nil hposm)
    (posVals_analyse_files fs L) hget, hget, ?_⟩
  intro k
  have hlen := chunk_list_length L N hn
  rcases hch : chunk_list L N with _ | ⟨c0, rest⟩
  · rw [hch] at hlen
    simp at hlen
    omega
  · have h2 := hget k
    rw [hch] at h2
    have hwc : ∀ p ∈ (c0 :: rest).map (analyse_files fs), WfKeys p := by
      intro p hp
      rcases List.mem_map.mp hp with ⟨c, _, rfl⟩
      exact wfKeys_analyse_files fs c
    rw [get_foldl_dict_add _ [] hwc k] at h2
    simp only [List.map_cons, List.sum_cons] at h2
    have hwr : ∀ p ∈ rest.map (analyse_files fs), WfKeys p := by
      intro p hp
      rcases List.mem_map.mp hp with ⟨c, _, rfl⟩
      exact wfKeys_analyse_files fs c
    simp only [run_master]
    rw [hch]
    simp only [List.headD_cons, List.drop_succ_cons, List.drop_zero]
    rw [← List.foldl_map, get_foldl_dict_add _ _ hwr k]
    simp only [Counter.get] at h2 ⊢
    omega

/-- Witness for C1 at a concrete three-file list split into two chunks. -/
theorem c1_chunked_fold_eq_sequential_witness :
    1 ≤ 2 ∧
    (List.Perm
        (((chunk_list sampleFiles 2).map (analyse_files sampleFS)).foldl
          dict_add [])
        (analyse_files sampleFS sampleFiles) ∧
     (∀ k, Counter.get
          (((chunk_list sampleFiles 2).map (analyse_files sampleFS)).foldl
            dict_add []) k
        = Counter.get (analyse_files sampleFS sampleFiles) k) ∧
     (∀ k, Counter.get (run_master sampleFS sampleFiles 2 true).1 k
        = Counter.get (analyse_files sampleFS sampleFiles) k)) :=
  ⟨by decide, c1_chunked_fold_eq_sequential sampleFS sampleFiles 2 (by decide)⟩

/-- C3: one unreadable identifier among readable ones leaves every
per-level count exactly as if the readable files were analysed alone, and
contributes an error-tag count of exactly 1; `analyse_files` is a total
function, so the unreadable file becomes the error increment rather than
an exception. -/
theorem c3_unreadable_isolated (fs : FS) (A B : List String) (u : String)
    (hu : fs u = none) (hAB : ∀ f ∈ A ++ B, (fs f).isSome = true) :
    (∀ k, k ≠ "__errors__" →
      Counter.get (analyse_files fs (A ++ u :: B)) k
        = Counter.get (analyse_files fs (A ++ B)) k) ∧
    Counter.get (analyse_files fs (A ++ u :: B)) "__errors__" = 1 := by
  have hsplit : A ++ u :: B = (A ++ [u]) ++ B := by simp
  have hA : ∀ f ∈ A, (fs f).isSome = true :=
    fun f hf => hAB f (List.mem_append_left B hf)
  have hB : ∀ f ∈ B, (fs f).isSome = true :=
    fun f hf => hAB f (List.mem_append_right A hf)
  constructor
  · intro k hk
    have h0 : Counter.get [("__errors__", 1)] k = 0 := by
      simp only [Counter.get]
      rw [if_neg (fun he => hk (Eq.symm he))]
    rw [hsplit, analyse_files_append fs (A ++ [u]) B,
      analyse_files_append fs A [u], analyse_files_append fs A B,
      analyse_single_unreadable fs u hu, h0]
    omega
  · rw [hsplit, analyse_files_append fs (A ++ [u]) B,
      analyse_files_append fs A [u], analyse_single_unreadable fs u hu,
      analyse_readable_no_err fs A hA, analyse_readable_no_err fs B hB]
    simp [Counter.get]

/-- Witness for C3: `bad.log` is unreadable among two readable files. -/
theorem c3_unreadable_isolated_witness :
    sampleFS "bad.log" = none ∧
    (∀ f ∈ ["a.log"] ++ ["d.log"], (sampleFS f).isSome = true) ∧
    ((∀ k, k ≠ "__errors__" →
        Counter.get
          (analyse_files sampleFS (["a.log"] ++ "bad.log" :: ["d.log"])) k
          = Counter.get (analyse_files sampleFS (["a.log"] ++ ["d.log"])) k) ∧
     Counter.get (analyse_files sampleFS (["a.log"] ++ "bad.log" :: ["d.log"]))
       "__errors__" = 1) :=
  ⟨by decide, by decide,
   c3_unreadable_isolated sampleFS ["a.log"] ["d.log"] "bad.log"
     (by decide) (by decide)⟩

/-- C5: folding a collection of partial mappings with `dict_add` in any
order yields the same final mapping — as dicts (a permutation of the
entries) and pointwise under `get`.  The hypotheses say the partials are
genuine tag-count mappings as workers produce them: unique keys and
positive stored counts. -/
theorem c5_dict_add_fold_order_invariant (ps qs : List Counter)
    (hwf : ∀ p ∈ ps, WfKeys p) (hpos : ∀ p ∈ ps, PosVals p)
    (hperm : List.Perm ps qs) :
    List.Perm (ps.foldl dict_add []) (qs.foldl dict_add []) ∧
    ∀ k, Counter.get (ps.foldl dict_add []) k
      = Counter.get (qs.foldl dict_add []) k := by
  have hwq : ∀ p ∈ qs, WfKeys p := fun p hp => hwf p (hperm.mem_iff.mpr hp)
  have hpq : ∀ p ∈ qs, PosVals p := fun p hp => hpos p (hperm.mem_iff.mpr hp)
  have hget : ∀ k, Counter.get (ps.foldl dict_add []) k
      = Counter.get (qs.foldl dict_add []) k := by
    intro k
    rw [get_foldl_dict_add ps [] hwf k, get_foldl_dict_add qs [] hwq k]
    have hp2 : List.Perm (ps.map (fun p => Counter.get p k))
        (qs.map (fun p => Counter.get p k)) := hperm.map _
    rw [hp2.sum_eq]
  exact ⟨perm_of_get_eq _ _ (wfKeys_foldl_dict_add ps [] wfKeys_nil)
    (wfKeys_foldl_dict_add qs [] wfKeys_nil)
    (posVals_foldl_dict_add ps [] posVals_nil hpos)
    (posVals_foldl_dict_add qs [] posVals_nil hpq) hget, hget⟩

/-- Witness for C5 at two concrete partial mappings merged in both orders. -/
theorem c5_dict_add_fold_order_invariant_witness :
    (∀ p ∈ [sampleA, sampleB], WfKeys p) ∧
    (∀ p ∈ [sampleA, sampleB], PosVals p) ∧
    List.Perm [sampleA, sampleB] [sampleB, sampleA] ∧
    (List.Perm ([sampleA, sampleB].foldl dict_add [])
        ([sampleB, sampleA].foldl dict_add []) ∧
     ∀ k, Counter.get ([sampleA, sampleB].foldl dict_add []) k
       = Counter.get ([sampleB, sampleA].foldl dict_add []) k) :=
  ⟨by unfold WfKeys; decide, by unfold PosVals; decide,
   List.Perm.swap sampleB sampleA [],
   c5_dict_add_fold_order_invariant [sampleA, sampleB] [sampleB, sampleA]
     (by unfold WfKeys; decide) (by unfold PosVals; decide)
     (List.Perm.swap sampleB sampleA [])⟩

/-- C8: every mapping produced by `analyse_files` has keys drawn only from
the recognized levels plus the reserved error tag, the invariant is
preserved by `dict_add`, and every stored count is positive (counts are
naturals, hence in particular non-negative). -/
theorem c8_keys_recognized :
    (∀ (fs : FS) (L : List String), KeysOk (analyse_files fs L)) ∧
    (∀ a b : Counter, KeysOk a → KeysOk b → KeysOk (dict_add a b)) ∧
    (∀ (fs : FS) (L : List String), ∀ p ∈ analyse_files fs L, 0 < p.2) := by
  refine ⟨?_, keysOk_dict_add, ?_⟩
  · intro fs L
    exact foldl_preserves KeysOk (analyse_one fs) (keysOk_analyse_one fs) L
      [] keysOk_nil
  · intro fs L
    exact posVals_analyse_files fs L

/-- Witness for C8: the `dict_add` preservation clause at two concrete
well-keyed mappings. -/
theorem c8_keys_recognized_witness :
    KeysOk (dict_add sampleA sampleB) :=
  c8_keys_recognized.2.1 sampleA sampleB
    (by unfold KeysOk; decide) (by unfold KeysOk; decide)
